import Mathlib

/-!
Verification of the cpp-signal connection registry (cpp-signal.h and
cpp-signal-async.h), shallowly embedded: the slot registry of
cpp_signal::slot_tracker becomes a list of records, the graph of trackers
becomes a map from tracker ids to registries, and the async gate becomes a
labelled transition system.
-/

namespace cpp_signal

/-- Slot identity from cpp_signal_util: a pair of machine-word handles,
first the receiver identity, second the function identity. -/
abbrev slot_key := Nat × Nat

/-- The tracked_slot record of cpp_signal::slot_tracker: a binding key, the
partner tracker (a raw pointer in the source, modelled as a numeric tracker
id) and the role flag: call true is the Call role, call false the Track role. -/
structure tracked_slot where
  key : slot_key
  tracker : Nat
  call : Bool
  deriving DecidableEq, Repr

/-- The slots type: a std::forward_list of tracked_slot. -/
abbrev slots := List tracked_slot

/-- slot_tracker::add: emplace_front of a new record. -/
def add (regs : slots) (key : slot_key) (tracker : Nat) (call : Bool) : slots :=
  tracked_slot.mk key tracker call :: regs

/-- slot_tracker::remove: remove_if over the list, dropping every record
whose key and tracker both match. -/
def remove (key : slot_key) (tracker : Nat) (regs : slots) : slots :=
  regs.filter (fun s => ! decide (s.key = key ∧ s.tracker = tracker))

/-- slot_tracker::empty. -/
def empty (regs : slots) : Bool := regs.isEmpty

/-- The emission walk shared by slot_tracker::call and the folding variants:
records with call false are skipped, every other record is invoked once, in
list order.  The result is the sequence of invoked keys. -/
def callKeys (regs : slots) : List slot_key :=
  (regs.filter (fun s => s.call)).map (fun s => s.key)

/-- slot_tracker::call as a state transformer: the walk yields the sequence
of invoked keys together with the record list as the loop leaves it (the
loop only reads each record). -/
def emitWalk : slots → List slot_key × slots
  | [] => ([], [])
  | s :: rest =>
    let r := emitWalk rest
    (if s.call then s.key :: r.1 else r.1, s :: r.2)

/-- slot_tracker::accumulate: fold the invoked slots' return values into
init via +, skipping Track records; ev gives each slot's return value. -/
def accumulate (ev : slot_key → Nat) (init : Nat) (regs : slots) : Nat :=
  regs.foldl (fun acc s => if s.call then acc + ev s.key else acc) init

/-- slot_tracker::accumulate_op: the same fold with a caller-supplied
binary operator in place of +. -/
def accumulate_op (ev : slot_key → Nat) (op : Nat → Nat → Nat) (init : Nat)
    (regs : slots) : Nat :=
  regs.foldl (fun acc s => if s.call then op acc (ev s.key) else acc) init

/-- cpp_signal_util::slot::copy_key: when the key's receiver component is
null the key is returned unchanged, otherwise the receiver component is
replaced by the copied object's identity and the function component kept. -/
def copy_key (key : slot_key) (copied_obj : Nat) : slot_key :=
  if key.1 = 0 then key else (copied_obj, key.2)

/-- Modelled from the spec: the spec's reading of remove in section 4.2,
deleting only the FIRST record matching both key and tracker.  Used to
compare the spec's wording with the source's remove_if. -/
def removeFirstSpec (key : slot_key) (tracker : Nat) : slots → slots
  | [] => []
  | s :: rest =>
    if s.key = key ∧ s.tracker = tracker then rest
    else s :: removeFirstSpec key tracker rest

/-- n successive connects of the same slot (head insertion each time). -/
def addN (n : Nat) (k : slot_key) (t : Nat) (regs : slots) : slots :=
  match n with
  | 0 => regs
  | m + 1 => add (addN m k t regs) k t true

/-- A connect or disconnect of an untracked slot on a signal. -/
inductive SigOp where
  | conn (k : slot_key)
  | disc (k : slot_key)
  deriving DecidableEq, Repr

/-- signal::connect of an untracked callable is add_to_call(key, this);
signal::disconnect is slot_tracker::remove(key, this). -/
def applyOp (self : Nat) (regs : slots) (op : SigOp) : slots :=
  match op with
  | SigOp.conn k => add regs k self true
  | SigOp.disc k => remove k self regs

def applyOps (self : Nat) (ops : List SigOp) (regs : slots) : slots :=
  ops.foldl (applyOp self) regs

/-- Whether the slot with key k is connected after the op sequence, starting
from connection state b. -/
def connAfter (k : slot_key) (b : Bool) (ops : List SigOp) : Bool :=
  ops.foldl (fun c op => match op with
    | SigOp.conn j => if j = k then true else c
    | SigOp.disc j => if j = k then false else c) b

/-- The number of Call-role records carrying key k. -/
def countCallK (k : slot_key) (regs : slots) : Nat :=
  (regs.filter (fun s => s.call && decide (s.key = k))).length

/-- The op sequence never connects a slot that is already connected. -/
def wfOps (self : Nat) (regs : slots) : List SigOp → Bool
  | [] => true
  | SigOp.conn k :: rest =>
    decide (countCallK k regs = 0) && wfOps self (applyOp self regs (SigOp.conn k)) rest
  | SigOp.disc k :: rest => wfOps self (applyOp self regs (SigOp.disc k)) rest

/-- A world of trackers: each tracker id owns its record list. -/
abbrev world := Nat → slots

/-- Point update of one tracker's record list. -/
def wUpdate (w : world) (t : Nat) (regs : slots) : world :=
  fun u => if u = t then regs else w u

/-- One iteration of slot_tracker::clear's loop: a record whose partner is
not the tracker itself makes the partner remove the mirrored record. -/
def clearStep (t : Nat) (w : world) (s : tracked_slot) : world :=
  if s.tracker = t then w
  else wUpdate w s.tracker (remove s.key t (w s.tracker))

/-- slot_tracker::clear: walk the owned records notifying every partner,
then drop all own records.  The destructor runs exactly clear. -/
def clear (w : world) (t : Nat) : world :=
  wUpdate ((w t).foldl (clearStep t) w) t []

/-- The mirror invariant: every record in a partner registry pointing back
at tracker t is mirrored by a record in t's own registry with the same key
and that partner as its tracker. -/
def Mirrored (w : world) (t : Nat) : Prop :=
  ∀ u, u ≠ t → ∀ s ∈ w u, s.tracker = t →
    ∃ m ∈ w t, m.key = s.key ∧ m.tracker = u

/-- The key adjustment in slot_tracker::copy: a Track record's key is
rewritten via copy_key to denote the copy, a Call record's key is kept. -/
def copiedKey (self : Nat) (s : tracked_slot) : slot_key :=
  if s.call then s.key else copy_key s.key self

/-- One iteration of slot_tracker::copy's loop over the source records: a
record whose tracker is the source itself is re-inserted pointing at the
copy; any other record is re-inserted with its original tracker, and that
tracker additionally gains the mirror (add_to_track for a Call record,
add_to_call for a Track record). -/
def copyStep (other self : Nat) (w : world) (s : tracked_slot) : world :=
  if s.tracker = other then
    wUpdate w self (add (w self) (copiedKey self s) self s.call)
  else
    let w1 := wUpdate w self (add (w self) (copiedKey self s) s.tracker s.call)
    wUpdate w1 s.tracker (add (w1 s.tracker) (copiedKey self s) self (! s.call))

/-- slot_tracker::copy(other): iterate the source's records. -/
def copy (w : world) (self other : Nat) : world :=
  (w other).foldl (copyStep other self) w

/-- slot_tracker::operator=: it only invokes copy(other); there is no
clearing of the target's own records first. -/
def assign (w : world) (self other : Nat) : world :=
  copy w self other

/-- The record the copy ends up owning for a given source record. -/
def copyTransform (other self : Nat) (s : tracked_slot) : tracked_slot :=
  tracked_slot.mk (copiedKey self s)
    (if s.tracker = other then self else s.tracker) s.call

/-- The mirror record a third-party partner gains for a source record. -/
def mirrorRecord (self : Nat) (s : tracked_slot) : tracked_slot :=
  tracked_slot.mk (copiedKey self s) self (! s.call)

/-- A small concrete world: tracker 1 is a signal with one slot of receiver
tracker 2, and tracker 2 holds the mirroring Track record. -/
def exampleWorld : world := fun u =>
  if u = 1 then [tracked_slot.mk (2, 5) 2 true]
  else if u = 2 then [tracked_slot.mk (2, 5) 1 false]
  else []

/-- A small concrete world for the copy theorem: tracker 1 is a signal with
a tracked slot of receiver 2 and an untracked slot; tracker 2 mirrors. -/
def exampleWorld2 : world := fun u =>
  if u = 1 then [tracked_slot.mk (2, 5) 2 true, tracked_slot.mk (7, 8) 1 true]
  else if u = 2 then [tracked_slot.mk (2, 5) 1 false]
  else []

/-- A small concrete world for the assignment theorem: two signals, each
with one untracked slot of its own. -/
def exampleWorld3 : world := fun u =>
  if u = 1 then [tracked_slot.mk (4, 5) 1 true]
  else if u = 2 then [tracked_slot.mk (6, 7) 2 true]
  else []

end cpp_signal

namespace cpp_signal_async

open cpp_signal

/-- State of one async slot_tracker: the semaphore counter (initialised to
0; wait blocks until it is non-negative and then decrements, notify
increments — a single-admission gate), the registry, and the record list an
in-flight background emission is walking, if one is running. -/
structure AState where
  count : Int
  regs : slots
  inflight : Option slots
  deriving DecidableEq, Repr

/-- The operations of cpp_signal_async::slot_tracker visible at the gate. -/
inductive ALabel where
  | emitStart
  | emitFinish
  | addOp (k : slot_key) (t : Nat) (c : Bool)
  | removeOp (k : slot_key) (t : Nat)
  | clearOp
  | copyOp (recs : slots)
  | emptyOp
  deriving DecidableEq, Repr

/-- Interleaving semantics of the async slot_tracker.  An emission does
sem_.wait() on the calling thread (enabled only when the counter is
non-negative, decrementing it) and launches the background walk over the
live registry; the walk's completion does sem_.notify() (incrementing the
counter).  Every structural operation (add, remove, clear, copy, empty)
holds a scoped_semaphore around its own synchronous body: it needs the gate
free and leaves the counter as it found it. -/
inductive AStep : AState → ALabel → AState → Prop where
  | emitStart (s : AState) (hc : 0 ≤ s.count) (hn : s.inflight = none) :
      AStep s ALabel.emitStart (AState.mk (s.count - 1) s.regs (some s.regs))
  | emitFinish (s : AState) (l : slots) (h : s.inflight = some l) :
      AStep s ALabel.emitFinish (AState.mk (s.count + 1) s.regs none)
  | addOp (s : AState) (k : slot_key) (t : Nat) (c : Bool) (hc : 0 ≤ s.count) :
      AStep s (ALabel.addOp k t c) (AState.mk s.count (add s.regs k t c) s.inflight)
  | removeOp (s : AState) (k : slot_key) (t : Nat) (hc : 0 ≤ s.count) :
      AStep s (ALabel.removeOp k t) (AState.mk s.count (remove k t s.regs) s.inflight)
  | clearOp (s : AState) (hc : 0 ≤ s.count) :
      AStep s ALabel.clearOp (AState.mk s.count [] s.inflight)
  | copyOp (s : AState) (recs : slots) (hc : 0 ≤ s.count) :
      AStep s (ALabel.copyOp recs) (AState.mk s.count (recs ++ s.regs) s.inflight)
  | emptyOp (s : AState) (hc : 0 ≤ s.count) :
      AStep s ALabel.emptyOp s

/-- The freshly constructed async slot_tracker: counter 0, no records, no
emission in flight. -/
def AInit : AState := AState.mk 0 [] none

/-- States reachable from the initial state. -/
inductive Reach : AState → Prop where
  | start : Reach AInit
  | next (s : AState) (lab : ALabel) (s2 : AState) : Reach s → AStep s lab s2 → Reach s2

end cpp_signal_async

namespace cpp_signal

/-- Claim C7: emission never mutates the registry: the walk of
slot_tracker::call leaves the record list exactly as it was, and its only
effect is the in-order invocation of the Call-role records. -/
theorem emit_frame (regs : slots) :
    (emitWalk regs).2 = regs ∧ (emitWalk regs).1 = callKeys regs := by
  induction regs with
  | nil => exact ⟨rfl, rfl⟩
  | cons s rest ih =>
    refine ⟨?_, ?_⟩
    · simp [emitWalk, ih.1]
    · by_cases hc : s.call <;> simp [emitWalk, callKeys, hc, ih.2, List.filter_cons]

lemma accumulate_op_eq_foldl (ev : slot_key → Nat) (op : Nat → Nat → Nat) :
    ∀ (regs : slots) (init : Nat),
      accumulate_op ev op init regs = ((callKeys regs).map ev).foldl op init := by
  intro regs
  induction regs with
  | nil => intro init; rfl
  | cons s rest ih =>
    intro init
    by_cases hc : s.call <;>
      simp [accumulate_op, callKeys, List.filter_cons, hc, List.foldl_cons] <;>
      simpa [accumulate_op, callKeys] using ih _

lemma accumulate_eq_op (ev : slot_key → Nat) (init : Nat) (regs : slots) :
    accumulate ev init regs = accumulate_op ev (fun a b => a + b) init regs := rfl

/-- Claim C6: accumulate is the left fold via + of the Call-role slots'
return values, in registry iteration order, starting from init; with no
Call-role record it returns init; over slots returning v and 2v with init 3
it returns 3 + v + 2v; and accumulate_op performs the same fold with the
caller-supplied binary operator in place of +. -/
theorem accumulate_fold (ev : slot_key → Nat) (op : Nat → Nat → Nat)
    (init : Nat) (regs : slots) :
    accumulate ev init regs = ((callKeys regs).map ev).foldl (fun a b => a + b) init ∧
    accumulate_op ev op init regs = ((callKeys regs).map ev).foldl op init ∧
    (regs.filter (fun s => s.call) = [] → accumulate ev init regs = init) ∧
    (∀ (v : Nat) (ev2 : slot_key → Nat), ev2 (1, 10) = v → ev2 (2, 20) = 2 * v →
      accumulate ev2 3 [tracked_slot.mk (1, 10) 0 true, tracked_slot.mk (2, 20) 0 true] =
        3 + v + 2 * v) := by
  refine ⟨?_, accumulate_op_eq_foldl ev op regs init, ?_, ?_⟩
  · rw [accumulate_eq_op]; exact accumulate_op_eq_foldl ev _ regs init
  · intro h
    rw [accumulate_eq_op, accumulate_op_eq_foldl]
    simp [callKeys, h]
  · intro v ev2 h1 h2
    simp [accumulate, h1, h2]

/-- Witness for accumulate_fold at concrete inputs. -/
theorem accumulate_fold_w :
    accumulate (fun _ => 5) 3 ([] : slots) = 3 ∧
    accumulate (fun k => if k = (2, 20) then 14 else 7) 3
      [tracked_slot.mk (1, 10) 0 true, tracked_slot.mk (2, 20) 0 true] = 3 + 7 + 2 * 7 := by
  constructor
  · exact (accumulate_fold (fun _ => 5) (fun a b => a + b) 3 []).2.2.1 rfl
  · exact (accumulate_fold (fun _ => 5) (fun a b => a + b) 3 []).2.2.2 7
      (fun k => if k = (2, 20) then 14 else 7) (by decide) (by decide)

/-- Claim C8 counterexample: copy_key does not rewrite the receiver
component of a key whose receiver component is null: rewriting key (0, 5)
to receiver 7 leaves the receiver component 0, not 7. -/
theorem copy_key_null_cex : (copy_key (0, 5) 7).1 ≠ 7 := by decide

/-- Claim C8 (amended): copy_key always preserves the function component;
when the key's receiver component is non-null it is rewritten to the new
receiver, and when it is null (a free-function slot) the whole key is
returned unchanged. -/
theorem copy_key_spec (k : slot_key) (r : Nat) :
    (copy_key k r).2 = k.2 ∧
    (k.1 ≠ 0 → copy_key k r = (r, k.2)) ∧
    (k.1 = 0 → copy_key k r = k) := by
  unfold copy_key
  by_cases h : k.1 = 0 <;> simp [h]

/-- Witness for copy_key_spec at concrete keys. -/
theorem copy_key_spec_w :
    (copy_key (4, 5) 7).2 = 5 ∧ copy_key (4, 5) 7 = (7, 5) ∧
    copy_key (0, 5) 7 = (0, 5) := by
  refine ⟨(copy_key_spec (4, 5) 7).1, (copy_key_spec (4, 5) 7).2.1 (by decide),
    (copy_key_spec (0, 5) 7).2.2 (by decide)⟩

/-- Claim C5 counterexample: with two identical matching records, remove
deletes both, not just the first: the result is empty, differing from the
first-match-only reading which would keep one record. -/
theorem remove_first_cex :
    remove (1, 2) 0 [tracked_slot.mk (1, 2) 0 true, tracked_slot.mk (1, 2) 0 true] = [] ∧
    remove (1, 2) 0 [tracked_slot.mk (1, 2) 0 true, tracked_slot.mk (1, 2) 0 true] ≠
      removeFirstSpec (1, 2) 0
        [tracked_slot.mk (1, 2) 0 true, tracked_slot.mk (1, 2) 0 true] := by
  decide

lemma mem_remove_not_match (k : slot_key) (t : Nat) (regs : slots) :
    ∀ s ∈ remove k t regs, ¬(s.key = k ∧ s.tracker = t) := by
  intro s hs
  have h2 := (List.mem_filter.mp hs).2
  simp only [Bool.not_eq_true', decide_eq_false_iff_not] at h2
  exact h2

lemma mem_remove_of_mem (k : slot_key) (t : Nat) (regs : slots) :
    ∀ s ∈ regs, ¬(s.key = k ∧ s.tracker = t) → s ∈ remove k t regs := by
  intro s hs h
  refine List.mem_filter.mpr ⟨hs, ?_⟩
  simp only [Bool.not_eq_true', decide_eq_false_iff_not]
  exact h

lemma remove_noop (k : slot_key) (t : Nat) (regs : slots)
    (h : ∀ s ∈ regs, ¬(s.key = k ∧ s.tracker = t)) : remove k t regs = regs := by
  apply List.filter_eq_self.mpr
  intro s hs
  simp only [Bool.not_eq_true', decide_eq_false_iff_not]
  exact h s hs

/-- Claim C5 (amended): remove deletes every record matching both key and
partner; every record not matching both survives; and when no record
matches both, remove is a no-op leaving the record list unchanged. -/
theorem remove_spec (k : slot_key) (t : Nat) (regs : slots) :
    (∀ s ∈ remove k t regs, ¬(s.key = k ∧ s.tracker = t)) ∧
    (∀ s ∈ regs, ¬(s.key = k ∧ s.tracker = t) → s ∈ remove k t regs) ∧
    ((∀ s ∈ regs, ¬(s.key = k ∧ s.tracker = t)) → remove k t regs = regs) :=
  ⟨mem_remove_not_match k t regs, mem_remove_of_mem k t regs, remove_noop k t regs⟩

/-- Witness for remove_spec at a concrete registry. -/
theorem remove_spec_w :
    tracked_slot.mk (3, 4) 1 true ∈
      remove (1, 2) 0 [tracked_slot.mk (1, 2) 0 true, tracked_slot.mk (3, 4) 1 true] ∧
    remove (1, 2) 0 [tracked_slot.mk (3, 4) 1 true] = [tracked_slot.mk (3, 4) 1 true] := by
  constructor
  · exact (remove_spec (1, 2) 0
      [tracked_slot.mk (1, 2) 0 true, tracked_slot.mk (3, 4) 1 true]).2.1
      (tracked_slot.mk (3, 4) 1 true) (by decide) (by decide)
  · exact (remove_spec (1, 2) 0 [tracked_slot.mk (3, 4) 1 true]).2.2 (by decide)

lemma remove_addN (n : Nat) (k : slot_key) (t : Nat) (regs : slots) :
    remove k t (addN n k t regs) = remove k t regs := by
  induction n with
  | zero => rfl
  | succ m ih => simpa [addN, add, remove, List.filter_cons] using ih

/-- Claim C10: a single disconnect removes every matching record: after
connecting the same slot n times (n head-inserted records), one remove of
that key and partner deletes all n, and a subsequent emission does not
invoke the slot at all. -/
theorem remove_all_duplicates (n : Nat) (k : slot_key) (t : Nat) (regs : slots)
    (h : ∀ s ∈ regs, ¬(s.key = k ∧ s.tracker = t)) :
    remove k t (addN n k t regs) = regs ∧
    ((∀ s ∈ regs, s.key ≠ k) → (callKeys (remove k t (addN n k t regs))).count k = 0) := by
  have hbase : remove k t regs = regs := remove_noop k t regs h
  refine ⟨(remove_addN n k t regs).trans hbase, ?_⟩
  intro hk
  rw [remove_addN n k t regs, hbase]
  apply List.count_eq_zero.mpr
  intro hmem
  rcases List.mem_map.mp hmem with ⟨s, hs, hkey⟩
  exact hk s (List.mem_of_mem_filter hs) hkey

lemma countCallK_cons (k : slot_key) (s : tracked_slot) (regs : slots) :
    countCallK k (s :: regs) =
      (if s.call = true ∧ s.key = k then 1 else 0) + countCallK k regs := by
  simp only [countCallK, List.filter_cons]
  by_cases h : s.call = true ∧ s.key = k
  · have hb : (s.call && decide (s.key = k)) = true := by simp [h.1, h.2]
    simp [hb, h, Nat.add_comm]
  · have hb : (s.call && decide (s.key = k)) = false := by
      cases hc : s.call
      · simp
      · simp only [Bool.true_and, decide_eq_false_iff_not]
        intro hk
        exact h ⟨hc, hk⟩
    simp [hb, h]

lemma countCallK_remove_ne (k j : slot_key) (t : Nat) (regs : slots) (h : j ≠ k) :
    countCallK k (remove j t regs) = countCallK k regs := by
  induction regs with
  | nil => rfl
  | cons s rest ih =>
    by_cases hm : s.key = j ∧ s.tracker = t
    · have hstep : remove j t (s :: rest) = remove j t rest := by
        simp only [remove, List.filter_cons]
        simp [hm]
      rw [hstep, ih, countCallK_cons]
      have hk : ¬(s.call = true ∧ s.key = k) := by
        intro hc
        apply h
        rw [← hm.1]
        exact hc.2
      simp [hk]
    · have hstep : remove j t (s :: rest) = s :: remove j t rest := by
        simp only [remove, List.filter_cons]
        simp [hm]
      rw [hstep, countCallK_cons, countCallK_cons, ih]

lemma countCallK_remove_self (k : slot_key) (t : Nat) (regs : slots)
    (hinv : ∀ s ∈ regs, s.call = true → s.key = k → s.tracker = t) :
    countCallK k (remove k t regs) = 0 := by
  unfold countCallK
  rw [List.length_eq_zero, List.filter_eq_nil_iff]
  intro s hs
  have hmem := List.mem_of_mem_filter hs
  have hsur := (List.mem_filter.mp hs).2
  simp only [Bool.not_eq_true', decide_eq_false_iff_not] at hsur
  intro hp
  rw [Bool.and_eq_true] at hp
  obtain ⟨hc, hk⟩ := hp
  exact hsur ⟨of_decide_eq_true hk, hinv s hmem hc (of_decide_eq_true hk)⟩

lemma count_callKeys (k : slot_key) (regs : slots) :
    (callKeys regs).count k = countCallK k regs := by
  induction regs with
  | nil => rfl
  | cons s rest ih =>
    cases hc : s.call
    · have h1 : callKeys (s :: rest) = callKeys rest := by
        simp [callKeys, List.filter_cons, hc]
      rw [h1, ih, countCallK_cons]
      simp [hc]
    · have h1 : callKeys (s :: rest) = s.key :: callKeys rest := by
        simp [callKeys, List.filter_cons, hc]
      rw [h1, List.count_cons, ih, countCallK_cons]
      by_cases hk : s.key = k
      · simp [hk, hc]
        omega
      · simp [hk, Ne.symm hk, hc]

lemma countCall_applyOps (self : Nat) (k : slot_key) :
    ∀ (ops : List SigOp) (regs : slots) (b : Bool),
      countCallK k regs = (if b then 1 else 0) →
      (∀ s ∈ regs, s.call = true → s.key = k → s.tracker = self) →
      wfOps self regs ops = true →
      countCallK k (applyOps self ops regs) = if connAfter k b ops then 1 else 0 := by
  intro ops
  induction ops with
  | nil =>
    intro regs b hcount _ _
    simpa [applyOps, connAfter] using hcount
  | cons op rest ih =>
    intro regs b hcount hinv hwf
    have happ : applyOps self (op :: rest) regs = applyOps self rest (applyOp self regs op) :=
      rfl
    cases op with
    | conn j =>
      rw [wfOps, Bool.and_eq_true] at hwf
      obtain ⟨hcond, hrest⟩ := hwf
      have hzero : countCallK j regs = 0 := of_decide_eq_true hcond
      by_cases hjk : j = k
      · have hck : countCallK k regs = 0 := by rw [← hjk]; exact hzero
        have hb : b = false := by
          cases b with
          | false => rfl
          | true => rw [hck] at hcount; simp at hcount
        subst hb
        rw [happ]
        have hconn : connAfter k false (SigOp.conn j :: rest) = connAfter k true rest := by
          simp [connAfter, hjk]
        rw [hconn]
        apply ih (applyOp self regs (SigOp.conn j)) true
        · simp only [applyOp, add, countCallK_cons]
          simp [hjk, hck]
        · intro s hs hc hk2
          rcases List.mem_cons.mp hs with hhead | htail
          · rw [hhead]
          · exact hinv s htail hc hk2
        · exact hrest
      · rw [happ]
        have hconn : connAfter k b (SigOp.conn j :: rest) = connAfter k b rest := by
          simp [connAfter, hjk]
        rw [hconn]
        apply ih (applyOp self regs (SigOp.conn j)) b
        · simp only [applyOp, add, countCallK_cons]
          simp [hjk, hcount]
        · intro s hs hc hk2
          rcases List.mem_cons.mp hs with hhead | htail
          · exfalso; apply hjk; rw [hhead] at hk2; exact hk2
          · exact hinv s htail hc hk2
        · exact hrest
    | disc j =>
      rw [wfOps] at hwf
      have hrest := hwf
      have hsub : ∀ s ∈ applyOp self regs (SigOp.disc j), s ∈ regs := by
        intro s hs
        simp only [applyOp, remove] at hs
        exact List.mem_of_mem_filter hs
      by_cases hjk : j = k
      · rw [happ]
        have hconn : connAfter k b (SigOp.disc j :: rest) = connAfter k false rest := by
          simp [connAfter, hjk]
        rw [hconn]
        apply ih (applyOp self regs (SigOp.disc j)) false
        · have h5 := countCallK_remove_self k self regs hinv
          rw [hjk]
          simpa [applyOp] using h5
        · intro s hs hc hk2
          exact hinv s (hsub s hs) hc hk2
        · exact hrest
      · rw [happ]
        have hconn : connAfter k b (SigOp.disc j :: rest) = connAfter k b rest := by
          simp [connAfter, hjk]
        rw [hconn]
        apply ih (applyOp self regs (SigOp.disc j)) b
        · rw [← hcount]
          simpa [applyOp] using countCallK_remove_ne k j self regs hjk
        · intro s hs hc hk2
          exact hinv s (hsub s hs) hc hk2
        · exact hrest

/-- Claim C2: over every sequence of connect and disconnect operations on a
signal (with no redundant connect of an already-connected slot), emission
invokes exactly the currently-connected slots, each exactly once, regardless
of the order of the operations; and the emission walk counts exactly the
Call-role records, so Track-role (call false) records are never invoked. -/
theorem emit_exactly_connected (self : Nat) (regs0 : slots) (ops : List SigOp)
    (k : slot_key)
    (h0 : countCallK k regs0 = 0)
    (hinv : ∀ s ∈ regs0, s.call = true → s.key = k → s.tracker = self)
    (hwf : wfOps self regs0 ops = true) :
    (callKeys (applyOps self ops regs0)).count k =
      (if connAfter k false ops then 1 else 0) ∧
    (∀ regs : slots, (callKeys regs).count k = countCallK k regs) := by
  constructor
  · rw [count_callKeys]
    exact countCall_applyOps self k ops regs0 false (by simpa using h0) hinv hwf
  · intro regs
    exact count_callKeys k regs

/-- Witness for emit_exactly_connected: a connect-connect-disconnect
sequence over a registry holding one Track-role record. -/
theorem emit_exactly_connected_w :
    (callKeys (applyOps 0 [SigOp.conn (1, 2), SigOp.conn (3, 4), SigOp.disc (3, 4)]
      [tracked_slot.mk (9, 9) 5 false])).count (1, 2) = 1 ∧
    (callKeys (applyOps 0 [SigOp.conn (1, 2), SigOp.conn (3, 4), SigOp.disc (3, 4)]
      [tracked_slot.mk (9, 9) 5 false])).count (3, 4) = 0 := by
  constructor
  · exact (emit_exactly_connected 0 [tracked_slot.mk (9, 9) 5 false]
      [SigOp.conn (1, 2), SigOp.conn (3, 4), SigOp.disc (3, 4)] (1, 2)
      (by decide) (by decide) (by decide)).1.trans (by decide)
  · exact (emit_exactly_connected 0 [tracked_slot.mk (9, 9) 5 false]
      [SigOp.conn (1, 2), SigOp.conn (3, 4), SigOp.disc (3, 4)] (3, 4)
      (by decide) (by decide) (by decide)).1.trans (by decide)

lemma wUpdate_apply (w : world) (t : Nat) (regs : slots) (u : Nat) :
    wUpdate w t regs u = if u = t then regs else w u := rfl

lemma clearStep_apply (t : Nat) (w : world) (s : tracked_slot) (u : Nat) :
    clearStep t w s u =
      if s.tracker ≠ t ∧ u = s.tracker then remove s.key t (w s.tracker) else w u := by
  unfold clearStep
  by_cases ha : s.tracker = t
  · simp [ha]
  · by_cases hu : u = s.tracker
    · simp [ha, hu, wUpdate_apply]
    · simp [ha, hu, wUpdate_apply]

lemma clear_foldl_sub (t : Nat) :
    ∀ (l : slots) (w : world) (u : Nat) (s : tracked_slot),
      s ∈ (l.foldl (clearStep t) w) u → s ∈ w u := by
  intro l
  induction l with
  | nil => intro w u s hs; exact hs
  | cons a rest ih =>
    intro w u s hs
    have h1 := ih (clearStep t w a) u s hs
    rw [clearStep_apply] at h1
    by_cases hc : a.tracker ≠ t ∧ u = a.tracker
    · rw [if_pos hc] at h1
      simp only [remove] at h1
      rw [hc.2]
      exact List.mem_of_mem_filter h1
    · rwa [if_neg hc] at h1

lemma clear_foldl_removed (t : Nat) :
    ∀ (l : slots) (w : world) (m : tracked_slot), m ∈ l → m.tracker ≠ t →
      ∀ r ∈ (l.foldl (clearStep t) w) m.tracker, ¬(r.key = m.key ∧ r.tracker = t) := by
  intro l
  induction l with
  | nil => intro w m hm; exact absurd hm (List.not_mem_nil m)
  | cons a rest ih =>
    intro w m hm hmt r hr
    rcases List.mem_cons.mp hm with hma | hmr
    · subst hma
      have h1 := clear_foldl_sub t rest (clearStep t w m) m.tracker r hr
      rw [clearStep_apply] at h1
      rw [if_pos ⟨hmt, rfl⟩] at h1
      exact mem_remove_not_match m.key t (w m.tracker) r h1
    · exact ih (clearStep t w a) m hmr hmt r hr

/-- Claim C1: under the mirror invariant, clear asks every partner of every
owned record to drop the mirrored record and then empties its own registry:
afterwards the tracker's registry is empty (empty() is true) and no record
referencing the cleared tracker survives in any other registry, so a
subsequent emission by any partner signal cannot invoke the destroyed
receiver.  The destructor runs exactly clear. -/
theorem clear_purges (w : world) (t : Nat) (hm : Mirrored w t) :
    (clear w t) t = [] ∧
    empty ((clear w t) t) = true ∧
    (∀ u, u ≠ t → ∀ s ∈ (clear w t) u, s.tracker ≠ t) := by
  have ht : (clear w t) t = [] := by
    simp [clear, wUpdate_apply]
  refine ⟨ht, by rw [ht]; rfl, ?_⟩
  intro u hu s hs hst
  have hs' : s ∈ ((w t).foldl (clearStep t) w) u := by
    simpa [clear, wUpdate_apply, hu] using hs
  have hsw : s ∈ w u := clear_foldl_sub t (w t) w u s hs'
  obtain ⟨m, hmmem, hmkey, hmtr⟩ := hm u hu s hsw hst
  have hmt : m.tracker ≠ t := by rw [hmtr]; exact hu
  have hforb := clear_foldl_removed t (w t) w m hmmem hmt s (by rw [hmtr]; exact hs')
  exact hforb ⟨hmkey.symm, hst⟩

/-- Witness for clear_purges on a concrete two-tracker world. -/
theorem clear_purges_w :
    (clear exampleWorld 1) 1 = [] ∧
    empty ((clear exampleWorld 1) 1) = true ∧
    (∀ u, u ≠ 1 → ∀ s ∈ (clear exampleWorld 1) u, s.tracker ≠ 1) := by
  apply clear_purges
  intro u hu s hs htr
  by_cases h2 : u = 2
  · subst h2
    have hs2 : s = tracked_slot.mk (2, 5) 1 false := by
      simpa [exampleWorld] using hs
    exact ⟨tracked_slot.mk (2, 5) 2 true, by simp [exampleWorld], by simp [hs2]⟩
  · exfalso
    simp [exampleWorld, hu, h2] at hs

lemma copyStep_self (other self : Nat) (w : world) (s : tracked_slot)
    (hts : s.tracker ≠ self) :
    (copyStep other self w s) self = copyTransform other self s :: w self := by
  unfold copyStep copyTransform
  by_cases ho : s.tracker = other
  · simp [ho, wUpdate_apply, add]
  · simp [ho, wUpdate_apply, add, Ne.symm hts]

lemma copyStep_other (other self : Nat) (w : world) (s : tracked_slot)
    (hno : self ≠ other) :
    (copyStep other self w s) other = w other := by
  unfold copyStep
  by_cases ho : s.tracker = other
  · simp [ho, wUpdate_apply, Ne.symm hno]
  · simp [ho, wUpdate_apply, Ne.symm hno, Ne.symm ho]

lemma copyStep_third (other self p : Nat) (w : world) (s : tracked_slot)
    (hps : p ≠ self) :
    (copyStep other self w s) p =
      if s.tracker = p ∧ s.tracker ≠ other then mirrorRecord self s :: w p
      else w p := by
  by_cases ho : s.tracker = other
  · have hcond : ¬(s.tracker = p ∧ s.tracker ≠ other) := fun hc => hc.2 ho
    simp [copyStep, ho, wUpdate_apply, hps, hcond]
  · by_cases hp : s.tracker = p
    · have hts : s.tracker ≠ self := by rw [hp]; exact hps
      have hpo2 : p ≠ other := by rw [← hp]; exact ho
      have hcond : s.tracker = p ∧ s.tracker ≠ other := ⟨hp, ho⟩
      simp [copyStep, ho, wUpdate_apply, hcond, mirrorRecord, add, hp, Ne.symm hts, hps,
        hpo2]
    · have hcond : ¬(s.tracker = p ∧ s.tracker ≠ other) := fun hc => hp hc.1
      simp [copyStep, ho, wUpdate_apply, hcond, hps, hp, Ne.symm hp]

lemma copy_foldl_self (other self : Nat) :
    ∀ (l : slots) (w : world), (∀ s ∈ l, s.tracker ≠ self) →
      (l.foldl (copyStep other self) w) self =
        (l.map (copyTransform other self)).reverse ++ w self := by
  intro l
  induction l with
  | nil => intro w _; rfl
  | cons a rest ih =>
    intro w hl
    have ha : a.tracker ≠ self := hl a (List.mem_cons_self a rest)
    have hrest : ∀ s ∈ rest, s.tracker ≠ self := fun s hs =>
      hl s (List.mem_cons_of_mem a hs)
    rw [List.foldl_cons, ih (copyStep other self w a) hrest,
      copyStep_self other self w a ha]
    simp

lemma copy_foldl_other (other self : Nat) (hno : self ≠ other) :
    ∀ (l : slots) (w : world), (l.foldl (copyStep other self) w) other = w other := by
  intro l
  induction l with
  | nil => intro w; rfl
  | cons a rest ih =>
    intro w
    rw [List.foldl_cons, ih, copyStep_other other self w a hno]

lemma copy_foldl_third (other self p : Nat) (hps : p ≠ self) (hpo : p ≠ other) :
    ∀ (l : slots) (w : world),
      (l.foldl (copyStep other self) w) p =
        ((l.filter (fun s => decide (s.tracker = p))).map (mirrorRecord self)).reverse
          ++ w p := by
  intro l
  induction l with
  | nil => intro w; rfl
  | cons a rest ih =>
    intro w
    rw [List.foldl_cons, ih, copyStep_third other self p w a hps]
    by_cases hc : a.tracker = p ∧ a.tracker ≠ other
    · rw [if_pos hc]
      simp [List.filter_cons, hc.1]
    · rw [if_neg hc]
      have hap : a.tracker ≠ p := by
        intro h
        have hoth : a.tracker = other := not_not.mp (not_and.mp hc h)
        exact hpo (h.symm.trans hoth)
      simp [List.filter_cons, hap]

lemma callKeys_reverse (l : slots) : callKeys l.reverse = (callKeys l).reverse := by
  simp [callKeys, List.filter_reverse, List.map_reverse]

lemma callKeys_map_transform (other self : Nat) (l : slots) :
    callKeys (l.map (copyTransform other self)) = callKeys l := by
  induction l with
  | nil => rfl
  | cons a rest ih =>
    cases hc : a.call
    · simpa [callKeys, List.filter_cons, copyTransform, copiedKey, hc] using ih
    · simpa [callKeys, List.filter_cons, copyTransform, copiedKey, hc] using ih

/-- Claim C3: slot_tracker::copy rebuilds an equivalent connection set: the
copy owns, per source record, the transformed record (a Track record's key
rewritten to the copy via copy_key, a source-partnered record re-pointed at
the copy, any other record keeping its original partner); every third-party
partner additionally gains the mirror records for the source records naming
it (add_to_track for a Call record, add_to_call for a Track record); the
source registry is untouched; and the copy's emission walk invokes exactly
the source's connected slots (the same keys in reversed registry order,
hence the same number of slots). -/
theorem copy_rebuilds (w : world) (self other : Nat)
    (hno : self ≠ other) (hfresh : w self = [])
    (hpart : ∀ s ∈ w other, s.tracker ≠ self) :
    (copy w self other) self = ((w other).map (copyTransform other self)).reverse ∧
    (copy w self other) other = w other ∧
    (∀ p, p ≠ self → p ≠ other →
      (copy w self other) p =
        (((w other).filter (fun s => decide (s.tracker = p))).map
          (mirrorRecord self)).reverse ++ w p) ∧
    callKeys ((copy w self other) self) = (callKeys (w other)).reverse ∧
    (callKeys ((copy w self other) self)).length =
      (callKeys ((copy w self other) other)).length := by
  have h1 : (copy w self other) self =
      ((w other).map (copyTransform other self)).reverse := by
    have h := copy_foldl_self other self (w other) w hpart
    rw [copy, h, hfresh, List.append_nil]
  have h2 : (copy w self other) other = w other :=
    copy_foldl_other other self hno (w other) w
  have h4 : callKeys ((copy w self other) self) = (callKeys (w other)).reverse := by
    rw [h1, callKeys_reverse, callKeys_map_transform]
  refine ⟨h1, h2, ?_, h4, ?_⟩
  · intro p hps hpo
    exact copy_foldl_third other self p hps hpo (w other) w
  · rw [h4, h2, List.length_reverse]

/-- Witness for copy_rebuilds on a concrete world: tracker 3 is a fresh copy
of signal 1, which has one tracked slot (receiver 2) and one untracked. -/
theorem copy_rebuilds_w :
    (copy exampleWorld2 3 1) 3 =
      ((exampleWorld2 1).map (copyTransform 1 3)).reverse ∧
    (copy exampleWorld2 3 1) 1 = exampleWorld2 1 ∧
    (∀ p, p ≠ 3 → p ≠ 1 →
      (copy exampleWorld2 3 1) p =
        (((exampleWorld2 1).filter (fun s => decide (s.tracker = p))).map
          (mirrorRecord 3)).reverse ++ exampleWorld2 p) ∧
    callKeys ((copy exampleWorld2 3 1) 3) = (callKeys (exampleWorld2 1)).reverse ∧
    (callKeys ((copy exampleWorld2 3 1) 3)).length =
      (callKeys ((copy exampleWorld2 3 1) 1)).length :=
  copy_rebuilds exampleWorld2 3 1 (by decide) rfl (by decide)

/-- Claim C9: copy-assignment does not clear the target first: operator=
only invokes copy(other), so after a = b the target owns the transformed
copies of b's records prepended to all of its previously existing records;
assignment accumulates connections rather than replacing them. -/
theorem assign_accumulates (w : world) (a b : Nat)
    (hne : a ≠ b) (hpart : ∀ s ∈ w b, s.tracker ≠ a) :
    (assign w a b) a = ((w b).map (copyTransform b a)).reverse ++ w a ∧
    (∀ s ∈ w a, s ∈ (assign w a b) a) := by
  have h1 : (assign w a b) a = ((w b).map (copyTransform b a)).reverse ++ w a :=
    copy_foldl_self b a (w b) w hpart
  refine ⟨h1, ?_⟩
  intro s hs
  rw [h1]
  exact List.mem_append_right _ hs

/-- Witness for assign_accumulates: signal 1, already owning one record, is
assigned from signal 2; its old record survives. -/
theorem assign_accumulates_w :
    (assign exampleWorld3 1 2) 1 =
      ((exampleWorld3 2).map (copyTransform 2 1)).reverse ++ exampleWorld3 1 ∧
    (∀ s ∈ exampleWorld3 1, s ∈ (assign exampleWorld3 1 2) 1) :=
  assign_accumulates exampleWorld3 1 2 (by decide) (by decide)

end cpp_signal

namespace cpp_signal_async

open cpp_signal

lemma reach_inv (s : AState) (h : Reach s) :
    (s.inflight = none ∧ s.count = 0) ∨
      (∃ l, s.inflight = some l ∧ s.regs = l ∧ s.count = -1) := by
  induction h with
  | start => exact Or.inl ⟨rfl, rfl⟩
  | next s lab s2 hr hstep ih =>
    cases hstep with
    | emitStart hc hn =>
      rcases ih with ⟨hnone, hzero⟩ | ⟨l, hsome, hregs, hcnt⟩
      · refine Or.inr ⟨s.regs, rfl, rfl, ?_⟩
        rw [hzero]
        norm_num
      · rw [hn] at hsome
        exact absurd hsome (by simp)
    | emitFinish l hl =>
      rcases ih with ⟨hnone, hzero⟩ | ⟨l2, hsome, hregs, hcnt⟩
      · rw [hnone] at hl
        exact absurd hl (by simp)
      · refine Or.inl ⟨rfl, ?_⟩
        show s.count + 1 = 0
        rw [hcnt]
        norm_num
    | addOp k t c hc =>
      rcases ih with ⟨hnone, hzero⟩ | ⟨l2, hsome, hregs, hcnt⟩
      · exact Or.inl ⟨hnone, hzero⟩
      · rw [hcnt] at hc
        exact absurd hc (by norm_num)
    | removeOp k t hc =>
      rcases ih with ⟨hnone, hzero⟩ | ⟨l2, hsome, hregs, hcnt⟩
      · exact Or.inl ⟨hnone, hzero⟩
      · rw [hcnt] at hc
        exact absurd hc (by norm_num)
    | clearOp hc =>
      rcases ih with ⟨hnone, hzero⟩ | ⟨l2, hsome, hregs, hcnt⟩
      · exact Or.inl ⟨hnone, hzero⟩
      · rw [hcnt] at hc
        exact absurd hc (by norm_num)
    | copyOp recs hc =>
      rcases ih with ⟨hnone, hzero⟩ | ⟨l2, hsome, hregs, hcnt⟩
      · exact Or.inl ⟨hnone, hzero⟩
      · rw [hcnt] at hc
        exact absurd hc (by norm_num)
    | emptyOp hc =>
      exact ih

/-- Claim C4: in every reachable state of the async tracker with an
emission in flight, the registry equals the record list the background walk
observes (the gate, acquired when the emission was launched, is still
held), and the only step possible is the completion of that emission: every
structural operation (add, remove, clear, copy, empty) and any further
emission is blocked on the gate until the background task finishes, so the
registry observed by an in-flight emission is never structurally mutated
while that emission is executing; structural mutations issued during an
emission take effect only after it completes. -/
theorem async_gate_serializes (s : AState) (hr : Reach s) (l : slots)
    (h : s.inflight = some l) :
    s.regs = l ∧ s.count = -1 ∧
    (∀ lab s2, AStep s lab s2 →
      lab = ALabel.emitFinish ∧ s2.regs = l ∧ s2.inflight = none) := by
  rcases reach_inv s hr with ⟨hnone, hzero⟩ | ⟨l2, hsome, hregs, hcnt⟩
  · rw [hnone] at h
    exact absurd h (by simp)
  · have hl : l2 = l := by
      rw [h] at hsome
      exact (Option.some.inj hsome).symm
    subst hl
    refine ⟨hregs, hcnt, ?_⟩
    intro lab s2 hstep
    cases hstep with
    | emitStart hc hn =>
      rw [hn] at h
      exact absurd h (by simp)
    | emitFinish l3 h3 =>
      exact ⟨rfl, hregs, rfl⟩
    | addOp k t c hc =>
      rw [hcnt] at hc
      exact absurd hc (by norm_num)
    | removeOp k t hc =>
      rw [hcnt] at hc
      exact absurd hc (by norm_num)
    | clearOp hc =>
      rw [hcnt] at hc
      exact absurd hc (by norm_num)
    | copyOp recs hc =>
      rw [hcnt] at hc
      exact absurd hc (by norm_num)
    | emptyOp hc =>
      rw [hcnt] at hc
      exact absurd hc (by norm_num)

/-- Witness: the state reached by launching one emission from the initial
state has that emission in flight and admits only its completion. -/
theorem async_gate_serializes_w :
    (AState.mk (0 - 1 : Int) ([] : slots) (some ([] : slots))).regs = [] ∧
    (AState.mk (0 - 1 : Int) ([] : slots) (some ([] : slots))).count = -1 ∧
    (∀ lab s2,
      AStep (AState.mk (0 - 1 : Int) ([] : slots) (some ([] : slots))) lab s2 →
        lab = ALabel.emitFinish ∧ s2.regs = [] ∧ s2.inflight = none) := by
  have h1 : AStep AInit ALabel.emitStart
      (AState.mk (AInit.count - 1) AInit.regs (some AInit.regs)) :=
    AStep.emitStart AInit (by norm_num [AInit]) rfl
  exact async_gate_serializes _
    (Reach.next AInit ALabel.emitStart _ Reach.start h1) [] rfl

end cpp_signal_async

namespace cpp_signal

/-- Witness for remove_all_duplicates: two duplicate connects, one remove. -/
theorem remove_all_duplicates_w :
    remove (1, 2) 0 (addN 2 (1, 2) 0 [tracked_slot.mk (3, 4) 0 true]) =
      [tracked_slot.mk (3, 4) 0 true] ∧
    (callKeys (remove (1, 2) 0 (addN 2 (1, 2) 0 [tracked_slot.mk (3, 4) 0 true]))).count
      (1, 2) = 0 := by
  have h := remove_all_duplicates 2 (1, 2) 0 [tracked_slot.mk (3, 4) 0 true] (by decide)
  exact ⟨h.1, h.2 (by decide)⟩

end cpp_signal
